import Mathlib

/-!
A shallow embedding of `combinetxt.py` (class `TextFileCombiner`).

Python strings are modelled as `List Char`; a file read that may raise is
modelled as `Option (List Char)` (`none` = the read raised an exception).
Paths are also `List Char`.  The write phase of `combine_files` is modelled
as the ordered list of `(path, content)` pairs the run produces, applied to
a file-system state `List Char → Option (List Char)` with `'w'`-mode
(truncate/rewrite) semantics.
-/

/-- Shorthand turning a Lean string literal into its character list. -/
def chars (s : String) : List Char := s.data

/-- The whitespace set of Python `str.strip()` restricted to ASCII
(space, tab, newline, carriage return, vertical tab, form feed). -/
def isPySpace (c : Char) : Bool :=
  c = ' ' || c = '\t' || c = '\n' || c = '\r' || c = '\x0b' || c = '\x0c'

/-- Remove trailing Python whitespace. -/
def dropTrail (l : List Char) : List Char :=
  (l.reverse.dropWhile isPySpace).reverse

/-- Python `str.strip()`: remove leading and trailing whitespace. -/
def pyStrip (l : List Char) : List Char :=
  dropTrail (l.dropWhile isPySpace)

/-- Python `f.readline()` on the whole file content: the first line,
including its terminating newline when one is present. -/
def readline : List Char → List Char
  | [] => []
  | c :: cs => if c = '\n' then ['\n'] else c :: readline cs

/-- Character-level `startswith`: `isPre p l` holds when `p` is a literal
prefix of `l`. -/
def isPre : List Char → List Char → Bool
  | [], _ => true
  | _ :: _, [] => false
  | a :: as, b :: bs => a = b && isPre as bs

/-- The fixed text before the capture group in the regex
`r"Source URL: (.+)"`. -/
def urlMarker : List Char := chars "Source URL: "

/-- The regex match `re.match(r"Source URL: (.+)", l)` together with
`match.group(1)`: the line must start with `Source URL: ` followed by at
least one character; `.` does not match a newline, so the capture is the
maximal newline-free segment after the marker, and it must be nonempty. -/
def matchSourceURL (l : List Char) : Option (List Char) :=
  if isPre urlMarker l then
    if (l.drop urlMarker.length).takeWhile (fun c => c ≠ '\n') = [] then none
    else some ((l.drop urlMarker.length).takeWhile (fun c => c ≠ '\n'))
  else none

/-- `TextFileCombiner.get_source_url`, as a function of the outcome of
reading the file (`none` = the `open`/`readline` raised, the `except`
branch returns `None`).  On a successful read the code takes the first
line, applies `str.strip()` (both ends), and matches the regex. -/
def get_source_url (rd : Option (List Char)) : Option (List Char) :=
  match rd with
  | none => none
  | some content => matchSourceURL (pyStrip (readline content))

/-- `self.url_patterns`: the five-entry dict in its declaration order
(Python dicts preserve insertion order). -/
def url_patterns : List (List Char × List Char) :=
  [ (chars "core-nodes", chars "https://docs.n8n.io/integrations/builtin/core-nodes/"),
    (chars "app-nodes", chars "https://docs.n8n.io/integrations/builtin/app-nodes/"),
    (chars "trigger-nodes", chars "https://docs.n8n.io/integrations/builtin/trigger-nodes/"),
    (chars "cluster-nodes", chars "https://docs.n8n.io/integrations/builtin/cluster-nodes/"),
    (chars "credentials", chars "https://docs.n8n.io/integrations/builtin/credentials/") ]

/-- The `for group_name, pattern in self.url_patterns.items()` loop of
`get_file_group`: first entry whose pattern is a prefix of the url wins. -/
def findGroup : List (List Char × List Char) → List Char → Option (List Char)
  | [], _ => none
  | (g, p) :: rest, u => if isPre p u then some g else findGroup rest u

/-- `TextFileCombiner.get_file_group`.  Note Python's `if not url` is taken
both when `url` is `None` and when it is the empty string. -/
def get_file_group (url : Option (List Char)) : Option (List Char) :=
  match url with
  | none => none
  | some u => if u = [] then none else findGroup url_patterns u

/-- One discovered input file, as `combine_files` sees it: its path and the
outcomes of its two reads (one during URL extraction, one during the write
phase; either can raise independently). -/
structure InputFile where
  path : List Char
  readScan : Option (List Char)
  readWrite : Option (List Char)
deriving DecidableEq

/-- The group computed for a file in the classification loop of
`combine_files`: `group = self.get_file_group(self.get_source_url(file_path))`. -/
def classifyFile (f : InputFile) : Option (List Char) :=
  get_file_group (get_source_url f.readScan)

/-- The member list `grouped_files[g]` after the classification loop:
the files classified to `g`, in enumeration order. -/
def grouped (files : List InputFile) (g : List Char) : List InputFile :=
  files.filter (fun f => decide (classifyFile f = some g))

/-- The `other_files` list after the classification loop. -/
def other_files (files : List InputFile) : List InputFile :=
  files.filter (fun f => decide (classifyFile f = none))

/-- Keys of `grouped_files` in Python dict iteration order: the order in
which each group was first inserted, each key once. -/
def firstKeys (seen : List (List Char)) : List InputFile → List (List Char)
  | [] => []
  | f :: fs =>
      match classifyFile f with
      | none => firstKeys seen fs
      | some g => if g ∈ seen then firstKeys seen fs else g :: firstKeys (g :: seen) fs

/-- The realized (non-empty) groups of a run, in dict iteration order. -/
def realizedGroups (files : List InputFile) : List (List Char) :=
  firstKeys [] files

/-- The separator `'=' * 80`. -/
def delim : List Char := List.replicate 80 '='

/-- The bytes the write loop emits for one member file: nothing when the
read raises (the `except` branch logs and continues), otherwise
newline, delimiter line, the raw content, newline, delimiter line. -/
def fileBlock (f : InputFile) : List Char :=
  match f.readWrite with
  | none => []
  | some content =>
      ['\n'] ++ delim ++ ['\n'] ++ content ++ ['\n'] ++ delim ++ ['\n']

/-- The concatenation of the blocks of a member list, in order. -/
def blocks (members : List InputFile) : List Char :=
  (members.map fileBlock).flatten

/-- Header written for a named group:
`f"### Combined Content for {group_name} ###\n\n"`. -/
def headerGroup (g : List Char) : List Char :=
  chars "### Combined Content for " ++ g ++ chars " ###\n\n"

/-- Header written for the unmatched bucket. -/
def headerOther : List Char := chars "### Content from Other URLs ###\n\n"

/-- `os.path.join(dir, name)` for a plain relative name. -/
def joinPath (dir name : List Char) : List Char := dir ++ ['/'] ++ name

/-- Output path for a named group: `os.path.join(output_dir, f"{g}.txt")`. -/
def groupPath (dir g : List Char) : List Char := joinPath dir (g ++ chars ".txt")

/-- Output path for the unmatched bucket. -/
def otherPath (dir : List Char) : List Char := joinPath dir (chars "other_content.txt")

/-- The full content written into the output file of one group. -/
def groupContent (files : List InputFile) (g : List Char) : List Char :=
  headerGroup g ++ blocks (grouped files g)

/-- The full content written into `other_content.txt`. -/
def otherContent (files : List InputFile) : List Char :=
  headerOther ++ blocks (other_files files)

/-- `TextFileCombiner.combine_files`, as the ordered list of
`(path, content)` file writes the run performs: one write per non-empty
group in dict iteration order, then one for `other_content.txt` when
`other_files` is non-empty (`if other_files:`). -/
def combine_files (dir : List Char) (files : List InputFile) :
    List (List Char × List Char) :=
  (realizedGroups files).map (fun g => (groupPath dir g, groupContent files g)) ++
    match other_files files with
    | [] => []
    | _ :: _ => [(otherPath dir, otherContent files)]

/-- Apply a list of whole-file writes to a file-system state, in order.
Each write uses `open(path, 'w')` semantics: the new content replaces
whatever was at the path before (create/truncate, never append). -/
def applyWrites (fs : List Char → Option (List Char)) :
    List (List Char × List Char) → (List Char → Option (List Char))
  | [] => fs
  | w :: ws => applyWrites (fun p => if p = w.1 then some w.2 else fs p) ws

/-- First-match association lookup over the produced writes. -/
def lookupW : List (List Char × List Char) → List Char → Option (List Char)
  | [], _ => none
  | w :: rest, p => if w.1 = p then some w.2 else lookupW rest p

/-- The bucket a classification outcome denotes. -/
def bucket (files : List InputFile) : Option (List Char) → List InputFile
  | some g => grouped files g
  | none => other_files files

/-- The output path a classification outcome is written to. -/
def bucketPath (dir : List Char) : Option (List Char) → List Char
  | some g => groupPath dir g
  | none => otherPath dir

/-- The output content a classification outcome is written into. -/
def bucketContent (files : List InputFile) : Option (List Char) → List Char
  | some g => groupContent files g
  | none => otherContent files

/-- Extraction as claim C2 words it, for comparison with `get_source_url`:
it strips only trailing whitespace from the first line before matching the
pattern at the start of the line.  The code instead strips both ends
(`str.strip()`), so the two differ on a first line with leading whitespace. -/
def get_source_url_claim (rd : Option (List Char)) : Option (List Char) :=
  match rd with
  | none => none
  | some content => matchSourceURL (dropTrail (readline content))

/-- Sample input file whose first line carries a core-nodes URL and whose
reads both succeed. -/
def fileA : InputFile :=
  { path := chars "docs/a.txt",
    readScan :=
      some (chars "Source URL: https://docs.n8n.io/integrations/builtin/core-nodes/x\nHELLO"),
    readWrite :=
      some (chars "Source URL: https://docs.n8n.io/integrations/builtin/core-nodes/x\nHELLO") }

/-- Sample input file with no source line; both reads succeed. -/
def fileC : InputFile :=
  { path := chars "docs/c.txt",
    readScan := some (chars "no source line here"),
    readWrite := some (chars "no source line here") }

/-- Sample input file whose reads both raise. -/
def fileBad : InputFile :=
  { path := chars "docs/bad.txt", readScan := none, readWrite := none }

/-- Sample prior file-system state holding a stale output file from an
earlier run of a group that is empty in the current run. -/
def staleFS : List Char → Option (List Char) := fun q =>
  if q = groupPath (chars "combined_docs") (chars "app-nodes")
  then some (chars "stale") else none

/-! Helper lemmas about the string primitives. -/

theorem isPre_iff (p l : List Char) : isPre p l = true ↔ ∃ t, l = p ++ t := by
  induction p generalizing l with
  | nil => simp [isPre]
  | cons a as ih =>
      cases l with
      | nil => simp [isPre]
      | cons b bs =>
          simp only [isPre, Bool.and_eq_true, decide_eq_true_eq, ih, List.cons_append,
            List.cons.injEq]
          constructor
          · rintro ⟨rfl, t, rfl⟩; exact ⟨t, rfl, rfl⟩
          · rintro ⟨t, rfl, rfl⟩; exact ⟨rfl, t, rfl⟩

theorem isPre_append (p t : List Char) : isPre p (p ++ t) = true :=
  (isPre_iff p (p ++ t)).mpr ⟨t, rfl⟩

theorem mem_of_mem_dropWhile {q : Char → Bool} {x : Char} {l : List Char}
    (h : x ∈ l.dropWhile q) : x ∈ l :=
  (List.dropWhile_sublist q).mem h

theorem dropWhile_eq_cons_head {q : Char → Bool} {l : List Char} {y : Char}
    {ys : List Char} (h : l.dropWhile q = y :: ys) : q y = false := by
  have hne : l.dropWhile q ≠ [] := by simp [h]
  have := List.head_dropWhile_not q l hne
  simpa [h] using this

theorem dropTrail_append_ws {l ws : List Char} (h : ∀ x ∈ ws, isPySpace x = true) :
    dropTrail (l ++ ws) = dropTrail l := by
  unfold dropTrail
  rw [List.reverse_append, List.dropWhile_append_of_pos]
  intro a ha
  exact h a (List.mem_reverse.mp ha)

theorem mem_dropTrail {x : Char} {l : List Char} (h : x ∈ dropTrail l) : x ∈ l := by
  unfold dropTrail at h
  exact List.mem_reverse.mp (mem_of_mem_dropWhile (List.mem_reverse.mp h))

theorem mem_pyStrip {x : Char} {l : List Char} (h : x ∈ pyStrip l) : x ∈ l :=
  mem_of_mem_dropWhile (mem_dropTrail h)

theorem pyStrip_no_trailing_space {l xs : List Char} {c : Char}
    (h : pyStrip l = xs ++ [c]) : isPySpace c = false := by
  unfold pyStrip dropTrail at h
  have h2 : (l.dropWhile isPySpace).reverse.dropWhile isPySpace = c :: xs.reverse := by
    have := congrArg List.reverse h
    simpa using this
  exact dropWhile_eq_cons_head h2

theorem readline_shape (c : List Char) :
    ('\n' ∉ readline c) ∨ ∃ t, readline c = t ++ ['\n'] ∧ '\n' ∉ t := by
  induction c with
  | nil => left; simp [readline]
  | cons a as ih =>
      by_cases ha : a = '\n'
      · right; exact ⟨[], by simp [readline, ha], by simp⟩
      · rcases ih with h | ⟨t, ht, hnt⟩
        · left
          simp only [readline, if_neg ha, List.mem_cons]
          rintro (rfl | hmem)
          · exact ha rfl
          · exact h hmem
        · right
          refine ⟨a :: t, ?_, ?_⟩
          · simp [readline, if_neg ha, ht]
          · simp only [List.mem_cons]
            rintro (rfl | hmem)
            · exact ha rfl
            · exact hnt hmem

theorem newline_not_mem_pyStrip_readline (c : List Char) :
    '\n' ∉ pyStrip (readline c) := by
  rcases readline_shape c with h | ⟨t, ht, hnt⟩
  · intro hmem; exact h (mem_pyStrip hmem)
  · rw [ht]
    unfold pyStrip
    rw [List.dropWhile_append]
    split
    · intro hmem
      have h0 : List.dropWhile isPySpace ['\n'] = [] := by decide
      rw [h0] at hmem
      simp [dropTrail] at hmem
    · rw [dropTrail_append_ws (by intro x hx; simp at hx; subst hx; rfl)]
      intro hmem
      exact hnt (mem_of_mem_dropWhile (mem_dropTrail hmem))

theorem matchSourceURL_some_iff {l u : List Char} (hnl : '\n' ∉ l) :
    matchSourceURL l = some u ↔ l = urlMarker ++ u ∧ u ≠ [] := by
  constructor
  · intro h
    unfold matchSourceURL at h
    split at h
    · rename_i hpre
      obtain ⟨t, rfl⟩ := (isPre_iff urlMarker l).mp hpre
      rw [List.drop_left] at h
      have hnt : ∀ x ∈ t, (fun c => decide (c ≠ '\n')) x = true := by
        intro x hx
        simp only [decide_eq_true_eq]
        intro hx'
        exact hnl (List.mem_append.mpr (Or.inr (hx' ▸ hx)))
      rw [List.takeWhile_eq_self_iff.mpr hnt] at h
      split at h
      · exact absurd h (by simp)
      · rename_i hne
        refine ⟨by rw [Option.some.injEq] at h; rw [h], ?_⟩
        rw [Option.some.injEq] at h; rw [← h]; exact hne
    · exact absurd h (by simp)
  · rintro ⟨rfl, hne⟩
    unfold matchSourceURL
    rw [if_pos (isPre_append urlMarker u), List.drop_left]
    have hnt : ∀ x ∈ u, (fun c => decide (c ≠ '\n')) x = true := by
      intro x hx
      simp only [decide_eq_true_eq]
      intro hx'
      exact hnl (List.mem_append.mpr (Or.inr (hx' ▸ hx)))
    rw [List.takeWhile_eq_self_iff.mpr hnt, if_neg hne]

theorem get_source_url_none_of_fail : get_source_url none = none := rfl

theorem get_source_url_some_iff (c u : List Char) :
    get_source_url (some c) = some u ↔
      pyStrip (readline c) = urlMarker ++ u ∧ u ≠ [] := by
  unfold get_source_url
  exact matchSourceURL_some_iff (newline_not_mem_pyStrip_readline c)

theorem pyStrip_marker_ws {ws : List Char} (h : ∀ x ∈ ws, isPySpace x = true) :
    pyStrip (chars "Source URL:" ++ ws) = chars "Source URL:" := by
  unfold pyStrip
  rw [List.dropWhile_append]
  have h1 : List.dropWhile isPySpace (chars "Source URL:") = chars "Source URL:" := by
    decide
  rw [h1]
  rw [if_neg (by decide)]
  rw [dropTrail_append_ws h]
  decide

theorem marker_no_match {l : List Char} (hlen : l.length < urlMarker.length) :
    matchSourceURL l = none := by
  unfold matchSourceURL
  split
  · rename_i hpre
    obtain ⟨t, rfl⟩ := (isPre_iff urlMarker l).mp hpre
    simp at hlen
  · rfl

/-! Helper lemmas about the group table lookup. -/

theorem findGroup_eq_none {ps : List (List Char × List Char)} {u : List Char}
    (h : ∀ gp ∈ ps, isPre gp.2 u = false) : findGroup ps u = none := by
  induction ps with
  | nil => rfl
  | cons gp rest ih =>
      obtain ⟨g, p⟩ := gp
      unfold findGroup
      rw [if_neg (by simp [h ⟨g, p⟩ (by simp)])]
      exact ih (fun x hx => h x (by simp [hx]))

theorem findGroup_first_match {ps₁ ps₂ : List (List Char × List Char)}
    {g p u : List Char}
    (hbefore : ∀ gp ∈ ps₁, isPre gp.2 u = false)
    (hmatch : isPre p u = true) :
    findGroup (ps₁ ++ (g, p) :: ps₂) u = some g := by
  induction ps₁ with
  | nil => simp [findGroup, hmatch]
  | cons gp rest ih =>
      obtain ⟨g', p'⟩ := gp
      have hp' : isPre p' u = false := hbefore ⟨g', p'⟩ (by simp)
      rw [List.cons_append]
      simp only [findGroup, hp']
      simp only [Bool.false_eq_true, if_false]
      exact ih (fun x hx => hbefore x (by simp [hx]))

theorem findGroup_mem {ps : List (List Char × List Char)} {u g : List Char}
    (h : findGroup ps u = some g) : g ∈ ps.map Prod.fst := by
  induction ps with
  | nil => simp [findGroup] at h
  | cons gp rest ih =>
      obtain ⟨g', p⟩ := gp
      unfold findGroup at h
      split at h
      · rw [Option.some.injEq] at h; simp [← h]
      · simp [ih h]

theorem classifyFile_mem_names {f : InputFile} {g : List Char}
    (h : classifyFile f = some g) : g ∈ url_patterns.map Prod.fst := by
  unfold classifyFile get_file_group at h
  split at h
  · exact absurd h (by simp)
  · split at h
    · exact absurd h (by simp)
    · exact findGroup_mem h

/-! Helper lemmas about the buckets. -/

theorem mem_grouped {files : List InputFile} {f : InputFile} {g : List Char} :
    f ∈ grouped files g ↔ f ∈ files ∧ classifyFile f = some g := by
  unfold grouped
  rw [List.mem_filter]
  simp

theorem mem_other_files {files : List InputFile} {f : InputFile} :
    f ∈ other_files files ↔ f ∈ files ∧ classifyFile f = none := by
  unfold other_files
  rw [List.mem_filter]
  simp

theorem mem_bucket {files : List InputFile} {f : InputFile}
    {b : Option (List Char)} :
    f ∈ bucket files b ↔ f ∈ files ∧ classifyFile f = b := by
  cases b with
  | none => exact mem_other_files
  | some g => exact mem_grouped

theorem mem_firstKeys {fs : List InputFile} {g : List Char} :
    ∀ seen, g ∈ firstKeys seen fs ↔
      (∃ f ∈ fs, classifyFile f = some g) ∧ g ∉ seen := by
  induction fs with
  | nil => intro seen; simp [firstKeys]
  | cons f rest ih =>
      intro seen
      unfold firstKeys
      split
      · rename_i hc
        rw [ih seen]
        constructor
        · rintro ⟨⟨f', hf', hcf'⟩, hns⟩
          exact ⟨⟨f', by simp [hf'], hcf'⟩, hns⟩
        · rintro ⟨⟨f', hf', hcf'⟩, hns⟩
          rcases List.mem_cons.mp hf' with rfl | hf'
          · rw [hc] at hcf'; exact absurd hcf' (by simp)
          · exact ⟨⟨f', hf', hcf'⟩, hns⟩
      · rename_i gf hc
        by_cases hseen : gf ∈ seen
        · rw [if_pos hseen, ih seen]
          constructor
          · rintro ⟨⟨f', hf', hcf'⟩, hns⟩
            exact ⟨⟨f', by simp [hf'], hcf'⟩, hns⟩
          · rintro ⟨⟨f', hf', hcf'⟩, hns⟩
            rcases List.mem_cons.mp hf' with rfl | hf'
            · rw [hc] at hcf'
              rw [Option.some.injEq] at hcf'
              subst hcf'
              exact absurd hseen hns
            · exact ⟨⟨f', hf', hcf'⟩, hns⟩
        · rw [if_neg hseen]
          rw [List.mem_cons, ih (gf :: seen)]
          constructor
          · rintro (rfl | ⟨⟨f', hf', hcf'⟩, hns⟩)
            · exact ⟨⟨f, by simp, hc⟩, hseen⟩
            · refine ⟨⟨f', by simp [hf'], hcf'⟩, ?_⟩
              intro hgs
              exact hns (by simp [hgs])
          · rintro ⟨⟨f', hf', hcf'⟩, hns⟩
            rcases List.mem_cons.mp hf' with rfl | hf'
            · left
              rw [hc] at hcf'
              rw [Option.some.injEq] at hcf'
              exact hcf'.symm
            · by_cases hgg : g = gf
              · left; exact hgg
              · right
                refine ⟨⟨f', hf', hcf'⟩, ?_⟩
                simp only [List.mem_cons]
                rintro (h1 | h2)
                · exact hgg h1
                · exact hns h2

theorem mem_realizedGroups {files : List InputFile} {g : List Char} :
    g ∈ realizedGroups files ↔ ∃ f ∈ files, classifyFile f = some g := by
  unfold realizedGroups
  rw [mem_firstKeys []]
  simp

theorem realized_mem_names {files : List InputFile} {g : List Char}
    (h : g ∈ realizedGroups files) : g ∈ url_patterns.map Prod.fst := by
  obtain ⟨f, _, hcf⟩ := mem_realizedGroups.mp h
  exact classifyFile_mem_names hcf

/-! Helper lemmas about output paths. -/

theorem groupPath_inj {dir g₁ g₂ : List Char}
    (h : groupPath dir g₁ = groupPath dir g₂) : g₁ = g₂ := by
  unfold groupPath joinPath at h
  simpa using h

theorem groupPath_ne_otherPath {dir g : List Char}
    (hg : g ∈ url_patterns.map Prod.fst) : groupPath dir g ≠ otherPath dir := by
  intro h
  unfold groupPath otherPath joinPath at h
  simp only [List.append_assoc, List.append_cancel_left_eq, List.cons.injEq, true_and] at h
  have h2 : chars "other_content.txt" = chars "other_content" ++ chars ".txt" := by decide
  have h3 : g = chars "other_content" := List.append_cancel_right (h.trans h2)
  rw [h3] at hg
  revert hg
  decide

/-! Helper lemmas about lookups in the produced write list. -/

theorem lookupW_append_of_none {ws₁ ws₂ : List (List Char × List Char)}
    {p : List Char} (h : lookupW ws₁ p = none) :
    lookupW (ws₁ ++ ws₂) p = lookupW ws₂ p := by
  induction ws₁ with
  | nil => rfl
  | cons w rest ih =>
      rw [List.cons_append]
      simp only [lookupW] at h ⊢
      by_cases hw : w.1 = p
      · rw [if_pos hw] at h; exact absurd h (by simp)
      · rw [if_neg hw] at h
        rw [if_neg hw]
        exact ih h

theorem lookupW_append_of_some {ws₁ ws₂ : List (List Char × List Char)}
    {p : List Char} {v : List Char} (h : lookupW ws₁ p = some v) :
    lookupW (ws₁ ++ ws₂) p = some v := by
  induction ws₁ with
  | nil => simp [lookupW] at h
  | cons w rest ih =>
      rw [List.cons_append]
      simp only [lookupW] at h ⊢
      by_cases hw : w.1 = p
      · rw [if_pos hw] at h
        rw [if_pos hw]
        exact h
      · rw [if_neg hw] at h
        rw [if_neg hw]
        exact ih h

theorem lookupW_group_map {dir : List Char} {gs : List (List Char)}
    {g : List Char} (c : List Char → List Char) (hg : g ∈ gs) :
    lookupW (gs.map (fun g' => (groupPath dir g', c g'))) (groupPath dir g) =
      some (c g) := by
  induction gs with
  | nil => simp at hg
  | cons a rest ih =>
      rw [List.map_cons]
      unfold lookupW
      by_cases hag : a = g
      · subst hag
        rw [if_pos rfl]
      · rw [if_neg (fun hpp => hag (groupPath_inj hpp))]
        have hrest : g ∈ rest := by
          rcases List.mem_cons.mp hg with h1 | h2
          · exact absurd h1.symm hag
          · exact h2
        exact ih hrest

theorem lookupW_group_map_none {dir p : List Char} {gs : List (List Char)}
    (c : List Char → List Char) (h : ∀ g ∈ gs, groupPath dir g ≠ p) :
    lookupW (gs.map (fun g' => (groupPath dir g', c g'))) p = none := by
  induction gs with
  | nil => rfl
  | cons a rest ih =>
      rw [List.map_cons]
      unfold lookupW
      rw [if_neg (h a (by simp))]
      exact ih (fun g hg => h g (by simp [hg]))

theorem lookupW_combine_group {dir : List Char} {files : List InputFile}
    {g : List Char} (hg : g ∈ realizedGroups files) :
    lookupW (combine_files dir files) (groupPath dir g) =
      some (groupContent files g) := by
  unfold combine_files
  exact lookupW_append_of_some (lookupW_group_map (groupContent files) hg)

theorem lookupW_combine_other {dir : List Char} {files : List InputFile}
    (h : other_files files ≠ []) :
    lookupW (combine_files dir files) (otherPath dir) =
      some (otherContent files) := by
  unfold combine_files
  have h1 : lookupW ((realizedGroups files).map
      (fun g' => (groupPath dir g', groupContent files g'))) (otherPath dir) = none :=
    lookupW_group_map_none (groupContent files)
      (fun g hg => groupPath_ne_otherPath (realized_mem_names hg))
  rw [lookupW_append_of_none h1]
  rcases ho : other_files files with _ | ⟨f, rest⟩
  · exact absurd ho h
  · unfold lookupW
    rw [if_pos rfl]

theorem lookupW_combine_other_none {dir : List Char} {files : List InputFile}
    (h : other_files files = []) :
    lookupW (combine_files dir files) (otherPath dir) = none := by
  unfold combine_files
  have h1 : lookupW ((realizedGroups files).map
      (fun g' => (groupPath dir g', groupContent files g'))) (otherPath dir) = none :=
    lookupW_group_map_none (groupContent files)
      (fun g hg => groupPath_ne_otherPath (realized_mem_names hg))
  rw [lookupW_append_of_none h1, h]
  rfl

/-! Helper lemmas about the write phase. -/

theorem blocks_append (a b : List InputFile) :
    blocks (a ++ b) = blocks a ++ blocks b := by
  unfold blocks
  rw [List.map_append, List.flatten_append]

theorem blocks_cons (f : InputFile) (ms : List InputFile) :
    blocks (f :: ms) = fileBlock f ++ blocks ms := by
  unfold blocks
  rw [List.map_cons, List.flatten_cons]

theorem blocks_split_of_mem {f : InputFile} {ms : List InputFile} (h : f ∈ ms) :
    ∃ pre post, blocks ms = pre ++ fileBlock f ++ post := by
  obtain ⟨s, t, rfl⟩ := List.append_of_mem h
  refine ⟨blocks s, blocks t, ?_⟩
  rw [blocks_append, blocks_cons, List.append_assoc]

theorem blocks_skip {f : InputFile} (hf : f.readWrite = none)
    (ms₁ ms₂ : List InputFile) :
    blocks (ms₁ ++ f :: ms₂) = blocks ms₁ ++ blocks ms₂ := by
  rw [blocks_append, blocks_cons]
  unfold fileBlock
  rw [hf]
  simp

theorem fileBlock_ne_nil {f : InputFile} {c : List Char}
    (h : f.readWrite = some c) : fileBlock f ≠ [] := by
  unfold fileBlock
  rw [h]
  simp

theorem delim_spec : delim.length = 80 ∧ ∀ c ∈ delim, c = '=' := by
  constructor
  · rfl
  · intro c hc
    exact List.eq_of_mem_replicate hc

/-! Helper lemmas about applying the writes to a file-system state. -/

theorem applyWrites_eq (ws : List (List Char × List Char))
    (fs : List Char → Option (List Char)) (p : List Char) :
    applyWrites fs ws p =
      match lookupW ws.reverse p with
      | some v => some v
      | none => fs p := by
  induction ws generalizing fs with
  | nil => rfl
  | cons w rest ih =>
      unfold applyWrites
      rw [ih, List.reverse_cons]
      rcases hl : lookupW rest.reverse p with _ | v
      · rw [lookupW_append_of_none hl]
        unfold lookupW
        by_cases hpw : w.1 = p
        · rw [if_pos hpw, if_pos hpw.symm]
        · rw [if_neg hpw, if_neg (fun hh => hpw hh.symm)]
          rfl
      · rw [lookupW_append_of_some hl]

theorem applyWrites_frame {ws : List (List Char × List Char)}
    {p : List Char} (h : p ∉ ws.map Prod.fst)
    (fs : List Char → Option (List Char)) :
    applyWrites fs ws p = fs p := by
  induction ws generalizing fs with
  | nil => rfl
  | cons w rest ih =>
      unfold applyWrites
      rw [ih (fun hm => h (by simp [hm]))]
      rw [if_neg (fun hpw : p = w.1 => h (by simp [hpw]))]

theorem isPre_nil {p : List Char} (h : isPre p [] = true) : p = [] := by
  cases p with
  | nil => rfl
  | cons a as => simp [isPre] at h

theorem readline_append_no_newline {a : List Char} (b : List Char)
    (h : '\n' ∉ a) : readline (a ++ b) = a ++ readline b := by
  induction a with
  | nil => rfl
  | cons x xs ih =>
      have hx : x ≠ '\n' := fun hh => h (by simp [hh])
      rw [List.cons_append]
      show (if x = '\n' then ['\n'] else x :: readline (xs ++ b)) = x :: xs ++ readline b
      rw [if_neg hx, ih (fun hm => h (by simp [hm])), List.cons_append]

theorem mem_readline {x : Char} {l : List Char} (h : x ∈ readline l) : x ∈ l := by
  induction l with
  | nil => simp [readline] at h
  | cons a as ih =>
      unfold readline at h
      by_cases ha : a = '\n'
      · rw [if_pos ha] at h
        simp at h
        simp [h, ha]
      · rw [if_neg ha] at h
        rcases List.mem_cons.mp h with rfl | hm
        · simp
        · simp [ih hm]

/-- Claim C2, counterexample: the claim says extraction strips only
trailing whitespace and returns absent when the first line has content
before `Source URL:`; but on the first line `" Source URL: x"` (leading
space) the code strips both ends and returns `"x"`, while the claim's
reading returns absent. -/
theorem claim_C2_counterexample :
    get_source_url (some (chars " Source URL: x")) = some (chars "x") ∧
    get_source_url_claim (some (chars " Source URL: x")) = none := by
  constructor
  · decide
  · decide

/-- Claim C2 (amended): `get_source_url` depends only on the file's first
line; it strips leading and trailing whitespace from it; it returns the
nonempty remainder `u` exactly when the stripped first line is
`Source URL: ` followed by `u`; and a read failure yields absent. -/
theorem claim_C2_amended :
    get_source_url none = none ∧
    (∀ c c', readline c = readline c' →
      get_source_url (some c) = get_source_url (some c')) ∧
    (∀ c u, get_source_url (some c) = some u ↔
      pyStrip (readline c) = urlMarker ++ u ∧ u ≠ []) := by
  refine ⟨rfl, ?_, get_source_url_some_iff⟩
  intro c c' h
  show matchSourceURL (pyStrip (readline c)) = matchSourceURL (pyStrip (readline c'))
  rw [h]

/-- Witness for claim C2 (amended), at two contents sharing a first line. -/
theorem claim_C2_amended_witness :
    readline (chars "Source URL: u\nSECOND") = readline (chars "Source URL: u\nOTHER") ∧
    get_source_url (some (chars "Source URL: u\nSECOND")) =
      get_source_url (some (chars "Source URL: u\nOTHER")) :=
  ⟨by decide, claim_C2_amended.2.1 (chars "Source URL: u\nSECOND")
    (chars "Source URL: u\nOTHER") (by decide)⟩

/-- Claim C3: the group table has five entries in declaration order;
classification of an absent URL is absent; if no table pattern is a prefix
of the URL the result is absent; and the first entry (in declaration
order) whose pattern is a character-level prefix of the URL wins. -/
theorem claim_C3 :
    url_patterns.length = 5 ∧
    get_file_group none = none ∧
    (∀ u, (∀ gp ∈ url_patterns, isPre gp.2 u = false) →
      get_file_group (some u) = none) ∧
    (∀ ps₁ ps₂ g p u, url_patterns = ps₁ ++ (g, p) :: ps₂ →
      (∀ gp ∈ ps₁, isPre gp.2 u = false) → isPre p u = true →
      get_file_group (some u) = some g) := by
  refine ⟨rfl, rfl, ?_, ?_⟩
  · intro u h
    show (if u = [] then none else findGroup url_patterns u) = none
    by_cases hu : u = []
    · rw [if_pos hu]
    · rw [if_neg hu]
      exact findGroup_eq_none h
  · intro ps₁ ps₂ g p u heq hbefore hmatch
    show (if u = [] then none else findGroup url_patterns u) = some g
    by_cases hu : u = []
    · subst hu
      have hpnil : p = [] := isPre_nil hmatch
      subst hpnil
      have hp : (g, ([] : List Char)) ∈ url_patterns := by
        rw [heq]; exact List.mem_append.mpr (Or.inr (by simp))
      have hall : ∀ gp ∈ url_patterns, gp.2 ≠ ([] : List Char) := by decide
      exact absurd rfl (hall (g, []) hp)
    · rw [if_neg hu, heq]
      exact findGroup_first_match hbefore hmatch

/-- Witness for claim C3: the second table entry wins on an app-nodes URL
once the first entry fails to match. -/
theorem claim_C3_witness :
    url_patterns =
      [(chars "core-nodes", chars "https://docs.n8n.io/integrations/builtin/core-nodes/")] ++
        (chars "app-nodes", chars "https://docs.n8n.io/integrations/builtin/app-nodes/") ::
          [ (chars "trigger-nodes", chars "https://docs.n8n.io/integrations/builtin/trigger-nodes/"),
            (chars "cluster-nodes", chars "https://docs.n8n.io/integrations/builtin/cluster-nodes/"),
            (chars "credentials", chars "https://docs.n8n.io/integrations/builtin/credentials/") ] ∧
    get_file_group (some (chars "https://docs.n8n.io/integrations/builtin/app-nodes/foo")) =
      some (chars "app-nodes") :=
  ⟨rfl, claim_C3.2.2.2
    [(chars "core-nodes", chars "https://docs.n8n.io/integrations/builtin/core-nodes/")]
    [ (chars "trigger-nodes", chars "https://docs.n8n.io/integrations/builtin/trigger-nodes/"),
      (chars "cluster-nodes", chars "https://docs.n8n.io/integrations/builtin/cluster-nodes/"),
      (chars "credentials", chars "https://docs.n8n.io/integrations/builtin/credentials/") ]
    (chars "app-nodes") (chars "https://docs.n8n.io/integrations/builtin/app-nodes/")
    (chars "https://docs.n8n.io/integrations/builtin/app-nodes/foo")
    rfl (by decide) (by decide)⟩

/-- Claim C8: a URL exactly equal to a registered prefix string still
matches that group (plain prefix matching, not proper extension). -/
theorem claim_C8 :
    get_file_group (some (chars "https://docs.n8n.io/integrations/builtin/core-nodes/")) =
      some (chars "core-nodes") ∧
    get_file_group (some (chars "https://docs.n8n.io/integrations/builtin/app-nodes/")) =
      some (chars "app-nodes") ∧
    get_file_group (some (chars "https://docs.n8n.io/integrations/builtin/trigger-nodes/")) =
      some (chars "trigger-nodes") ∧
    get_file_group (some (chars "https://docs.n8n.io/integrations/builtin/cluster-nodes/")) =
      some (chars "cluster-nodes") ∧
    get_file_group (some (chars "https://docs.n8n.io/integrations/builtin/credentials/")) =
      some (chars "credentials") := by
  refine ⟨by decide, by decide, by decide, by decide, by decide⟩

/-- Claim C10: when nothing, or only whitespace, follows the
`Source URL:` marker on the first line, extraction returns absent: the
stripped first line `Source URL:` never matches, the stripped line can
never even end in the marker's trailing space, and the regex demands a
nonempty remainder. -/
theorem claim_C10 :
    (∀ c, pyStrip (readline c) = chars "Source URL:" →
      get_source_url (some c) = none) ∧
    (∀ ws, (∀ x ∈ ws, isPySpace x = true) →
      get_source_url (some (chars "Source URL:" ++ ws)) = none) ∧
    (∀ l, pyStrip l ≠ chars "Source URL: ") := by
  refine ⟨?_, ?_, ?_⟩
  · intro c h
    show matchSourceURL (pyStrip (readline c)) = none
    rw [h]
    decide
  · intro ws hws
    show matchSourceURL (pyStrip (readline (chars "Source URL:" ++ ws))) = none
    have hnl : '\n' ∉ chars "Source URL:" := by decide
    rw [readline_append_no_newline ws hnl]
    have hrl : ∀ x ∈ readline ws, isPySpace x = true :=
      fun x hx => hws x (mem_readline hx)
    rw [pyStrip_marker_ws hrl]
    decide
  · intro l h
    have h1 : pyStrip l = chars "Source URL:" ++ [' '] := by
      rw [h]; decide
    have := pyStrip_no_trailing_space h1
    simp [isPySpace] at this

/-- Witness for claim C10, at first line `Source URL: ` (trailing space). -/
theorem claim_C10_witness :
    (∀ x ∈ [' '], isPySpace x = true) ∧
    get_source_url (some (chars "Source URL:" ++ [' '])) = none :=
  ⟨by decide, claim_C10.2.1 [' '] (by decide)⟩

/-- Claim C1: each discovered file lands in exactly one bucket (its matched
group, or the unclassified bucket); when its write-time read succeeds, its
block appears in that bucket's output file content, and when the
write-time read fails the file contributes nothing to any output. -/
theorem claim_C1 (dir : List Char) (files : List InputFile) (f : InputFile)
    (hf : f ∈ files) :
    (∃! b : Option (List Char), f ∈ bucket files b) ∧
    (∀ c, f.readWrite = some c → fileBlock f ≠ [] ∧
      ∃ pre post,
        lookupW (combine_files dir files) (bucketPath dir (classifyFile f)) =
          some (pre ++ fileBlock f ++ post)) ∧
    (f.readWrite = none → fileBlock f = []) := by
  refine ⟨⟨classifyFile f, mem_bucket.mpr ⟨hf, rfl⟩,
    fun b hb => ((mem_bucket.mp hb).2).symm⟩, ?_, ?_⟩
  · intro c hc
    refine ⟨fileBlock_ne_nil hc, ?_⟩
    rcases hcl : classifyFile f with _ | g
    · have hmem : f ∈ other_files files := mem_other_files.mpr ⟨hf, hcl⟩
      have hne : other_files files ≠ [] := by
        intro h0
        rw [h0] at hmem
        simp at hmem
      obtain ⟨p₁, p₂, hsplit⟩ := blocks_split_of_mem hmem
      refine ⟨headerOther ++ p₁, p₂, ?_⟩
      simp only [bucketPath]
      rw [lookupW_combine_other hne]
      unfold otherContent
      rw [hsplit]
      simp [List.append_assoc]
    · have hmem : f ∈ grouped files g := mem_grouped.mpr ⟨hf, hcl⟩
      have hreal : g ∈ realizedGroups files := mem_realizedGroups.mpr ⟨f, hf, hcl⟩
      obtain ⟨p₁, p₂, hsplit⟩ := blocks_split_of_mem hmem
      refine ⟨headerGroup g ++ p₁, p₂, ?_⟩
      simp only [bucketPath]
      rw [lookupW_combine_group hreal]
      unfold groupContent
      rw [hsplit]
      simp [List.append_assoc]
  · intro h
    simp [fileBlock, h]

/-- Witness for claim C1, at a two-file run whose first file is grouped. -/
theorem claim_C1_witness :
    fileA ∈ [fileA, fileC] ∧
    ((∃! b : Option (List Char), fileA ∈ bucket [fileA, fileC] b) ∧
      (∀ c, fileA.readWrite = some c → fileBlock fileA ≠ [] ∧
        ∃ pre post,
          lookupW (combine_files (chars "combined_docs") [fileA, fileC])
              (bucketPath (chars "combined_docs") (classifyFile fileA)) =
            some (pre ++ fileBlock fileA ++ post)) ∧
      (fileA.readWrite = none → fileBlock fileA = [])) :=
  ⟨by simp, claim_C1 (chars "combined_docs") [fileA, fileC] fileA (by simp)⟩

/-- Claim C4: each realized group's output file at `<output_dir>/<group>.txt`
holds the group header followed by a blank line and then, per member in
enumeration order, an 80-character `=` delimiter line, the member's raw
content and another delimiter line. -/
theorem claim_C4 (dir : List Char) (files : List InputFile) (g : List Char)
    (hg : g ∈ realizedGroups files) :
    lookupW (combine_files dir files) (groupPath dir g) =
      some (headerGroup g ++ blocks (grouped files g)) ∧
    headerGroup g =
      chars "### Combined Content for " ++ g ++ chars " ###" ++ chars "\n\n" ∧
    delim.length = 80 ∧
    (∀ c ∈ delim, c = '=') ∧
    (∀ f ∈ grouped files g, ∀ c, f.readWrite = some c →
      fileBlock f = ['\n'] ++ delim ++ ['\n'] ++ c ++ ['\n'] ++ delim ++ ['\n']) := by
  refine ⟨lookupW_combine_group hg, ?_, delim_spec.1, delim_spec.2, ?_⟩
  · unfold headerGroup
    have hsp : chars " ###\n\n" = chars " ###" ++ chars "\n\n" := by decide
    simp only [hsp, List.append_assoc]
  · intro f hf c hc
    simp [fileBlock, hc]

/-- Witness for claim C4, at the core-nodes group of a two-file run. -/
theorem claim_C4_witness :
    chars "core-nodes" ∈ realizedGroups [fileA, fileC] ∧
    lookupW (combine_files (chars "combined_docs") [fileA, fileC])
        (groupPath (chars "combined_docs") (chars "core-nodes")) =
      some (headerGroup (chars "core-nodes") ++
        blocks (grouped [fileA, fileC] (chars "core-nodes"))) :=
  ⟨by decide,
    (claim_C4 (chars "combined_docs") [fileA, fileC] (chars "core-nodes") (by decide)).1⟩

/-- Claim C5: running `combine_files` twice over unchanged inputs leaves
the file system exactly as after one run: every output is opened in
truncate mode and rewritten from scratch, never appended across runs. -/
theorem claim_C5 (dir : List Char) (files : List InputFile)
    (fs : List Char → Option (List Char)) :
    applyWrites (applyWrites fs (combine_files dir files)) (combine_files dir files) =
      applyWrites fs (combine_files dir files) := by
  funext p
  rw [applyWrites_eq (combine_files dir files) (applyWrites fs (combine_files dir files)) p,
    applyWrites_eq (combine_files dir files) fs p]
  cases hl : lookupW (combine_files dir files).reverse p
  · rfl
  · rfl

/-- Claim C6: both per-file failure kinds are non-fatal and local: a scan
read failure makes extraction absent and sends the file to the other
bucket, and a write-time read failure makes the file contribute nothing
while the surrounding files are still written. -/
theorem claim_C6 (files : List InputFile) (f : InputFile) (hf : f ∈ files) :
    (f.readScan = none → get_source_url f.readScan = none ∧ f ∈ other_files files) ∧
    (f.readWrite = none → fileBlock f = [] ∧
      ∀ ms₁ ms₂, blocks (ms₁ ++ f :: ms₂) = blocks ms₁ ++ blocks ms₂) := by
  constructor
  · intro h
    refine ⟨by rw [h]; exact rfl, mem_other_files.mpr ⟨hf, ?_⟩⟩
    unfold classifyFile
    rw [h]
    exact rfl
  · intro h
    exact ⟨by simp [fileBlock, h], fun ms₁ ms₂ => blocks_skip h ms₁ ms₂⟩

/-- Witness for claim C6, at a file whose two reads both raise. -/
theorem claim_C6_witness :
    fileBad ∈ [fileBad] ∧
    ((fileBad.readScan = none → get_source_url fileBad.readScan = none ∧
        fileBad ∈ other_files [fileBad]) ∧
      (fileBad.readWrite = none → fileBlock fileBad = [] ∧
        ∀ ms₁ ms₂, blocks (ms₁ ++ fileBad :: ms₂) = blocks ms₁ ++ blocks ms₂)) :=
  ⟨by simp, claim_C6 [fileBad] fileBad (by simp)⟩

/-- Claim C7: a file whose first line fails the `Source URL:` match lands
in the other bucket; a non-empty other bucket is written to
`other_content.txt` with its own header followed by the delimited member
blocks, and no such file is written when the bucket is empty. -/
theorem claim_C7 (dir : List Char) (files : List InputFile) :
    (∀ f ∈ files, ∀ c, f.readScan = some c →
      matchSourceURL (pyStrip (readline c)) = none → f ∈ other_files files) ∧
    (other_files files ≠ [] →
      lookupW (combine_files dir files) (otherPath dir) =
        some (headerOther ++ blocks (other_files files))) ∧
    (other_files files = [] →
      lookupW (combine_files dir files) (otherPath dir) = none) ∧
    headerOther = chars "### Content from Other URLs ###" ++ chars "\n\n" := by
  refine ⟨?_, lookupW_combine_other, lookupW_combine_other_none, by decide⟩
  intro f hf c hrs hm
  refine mem_other_files.mpr ⟨hf, ?_⟩
  unfold classifyFile
  rw [hrs]
  show get_file_group (matchSourceURL (pyStrip (readline c))) = none
  rw [hm]
  exact rfl

/-- Witness for claim C7, at a one-file run with no source line. -/
theorem claim_C7_witness :
    fileC ∈ [fileC] ∧
    fileC.readScan = some (chars "no source line here") ∧
    matchSourceURL (pyStrip (readline (chars "no source line here"))) = none ∧
    fileC ∈ other_files [fileC] :=
  ⟨by simp, rfl, by decide,
    (claim_C7 (chars "combined_docs") [fileC]).1 fileC (by simp)
      (chars "no source line here") rfl (by decide)⟩

/-- Claim C9: a run writes only the realized groups' `<group>.txt` files
and, when the other bucket is non-empty, `other_content.txt`, all inside
the output directory; any other path — including a stale output of a group
empty in this run — is left unchanged. -/
theorem claim_C9 (dir : List Char) (files : List InputFile)
    (fs : List Char → Option (List Char)) (p : List Char)
    (hpg : ∀ g ∈ realizedGroups files, p ≠ groupPath dir g)
    (hpo : other_files files ≠ [] → p ≠ otherPath dir) :
    (combine_files dir files).map Prod.fst =
      (realizedGroups files).map (groupPath dir) ++
        (match other_files files with
         | [] => []
         | _ :: _ => [otherPath dir]) ∧
    applyWrites fs (combine_files dir files) p = fs p := by
  have hk : (combine_files dir files).map Prod.fst =
      (realizedGroups files).map (groupPath dir) ++
        (match other_files files with
         | [] => []
         | _ :: _ => [otherPath dir]) := by
    unfold combine_files
    cases ho : other_files files
    · rw [List.map_append, List.map_map]
      rfl
    · rw [List.map_append, List.map_map]
      rfl
  refine ⟨hk, applyWrites_frame ?_ fs⟩
  intro hmem
  rw [hk] at hmem
  rcases List.mem_append.mp hmem with hg | hother
  · obtain ⟨g, hgr, hgp⟩ := List.mem_map.mp hg
    exact hpg g hgr hgp.symm
  · rcases ho : other_files files with _ | ⟨f, rest⟩
    · rw [ho] at hother
      simp at hother
    · rw [ho] at hother
      simp at hother
      exact hpo (by rw [ho]; simp) hother

/-- Witness for claim C9: the stale app-nodes output of an earlier run is
untouched by a run in which the app-nodes bucket is empty. -/
theorem claim_C9_witness :
    (∀ g ∈ realizedGroups [fileA, fileC],
      groupPath (chars "combined_docs") (chars "app-nodes") ≠
        groupPath (chars "combined_docs") g) ∧
    (other_files [fileA, fileC] ≠ [] →
      groupPath (chars "combined_docs") (chars "app-nodes") ≠
        otherPath (chars "combined_docs")) ∧
    applyWrites staleFS (combine_files (chars "combined_docs") [fileA, fileC])
        (groupPath (chars "combined_docs") (chars "app-nodes")) =
      staleFS (groupPath (chars "combined_docs") (chars "app-nodes")) :=
  ⟨by decide, by decide,
    (claim_C9 (chars "combined_docs") [fileA, fileC] staleFS
      (groupPath (chars "combined_docs") (chars "app-nodes"))
      (by decide) (by decide)).2⟩
